import Mathlib

/-
  Verification of `threshold_matrix.py`.

  Float values are modelled as rationals (the algorithm only compares values,
  tests them for equality and writes zeros, so the embedding is exact).
  The flattened buffer `M_triu.reshape(-1)` of an n x n row-major matrix is the
  concatenation of its rows; cell (r, c) sits at flat index r * n + c, so the
  strict-upper-triangle cells are the flat indices i with i / n < i % n.
  `np.random.shuffle(idx)` is modelled by a parameter `σ`, constrained in the
  theorems to be a permutation of the list `idx` computed by the code.
-/

namespace DTI

/-- The effective index of Python/NumPy indexing `s[i]`: negative indices count
from the end. -/
def pyIdx (s : List ℚ) (i : ℤ) : ℤ := if i < 0 then i + s.length else i

/-- Python/NumPy scalar indexing `s[i]` with negative-index wraparound;
`none` models the `IndexError` raised on an out-of-range index. -/
def pyGet (s : List ℚ) (i : ℤ) : Option ℚ :=
  if h : 0 ≤ pyIdx s i ∧ pyIdx s i < (s.length : ℤ) then
    some (s.get ⟨(pyIdx s i).toNat, by omega⟩) else none

/-- Python slice `s[i:]` (never raises). -/
def pyDrop (s : List ℚ) (i : ℤ) : List ℚ :=
  s.drop (if i < 0 then (i + s.length).toNat else i.toNat)

/-- `M_triu.reshape(-1)` on a row-major matrix: the concatenation of the rows. -/
def flatten (M : List (List ℚ)) : List ℚ := M.join

/-- `np.sort`: ascending sort of the flattened buffer. -/
def npSort (v : List ℚ) : List ℚ := List.insertionSort (· ≤ ·) v

/-- `thresh = M_triu_unzip_sorted[-n_keep]` (line 65 of the source). -/
def thresh (v : List ℚ) (n_keep : ℤ) : Option ℚ := pyGet (npSort v) (-n_keep)

/-- `keep_values = M_triu_unzip_sorted[-n_keep:]` (line 64 of the source). -/
def keep_values (v : List ℚ) (n_keep : ℤ) : List ℚ := pyDrop (npSort v) (-n_keep)

/-- `n_thresh_keep = keep_values[keep_values == thresh].shape[0]`. -/
def n_thresh_keep (v : List ℚ) (n_keep : ℤ) (t : ℚ) : ℕ :=
  (keep_values v n_keep).countP (fun x => decide (x = t))

/-- `idx = np.argwhere(M_triu_unzip == thresh)`: the flat positions holding `t`,
in increasing order. -/
def argwhereEq (v : List ℚ) (t : ℚ) : List ℕ :=
  (List.range v.length).filter (fun i => decide (v.getD i 0 = t))

/-- Helper for the fancy-indexing assignment: copy of the buffer with the
positions listed in `tz` set to zero (current position carried as a counter). -/
def zeroAtFrom (tz : List ℕ) : ℕ → List ℚ → List ℚ
  | _, [] => []
  | i, a :: as => (if i ∈ tz then 0 else a) :: zeroAtFrom tz (i + 1) as

/-- The assignment `M_triu_unzip[idx[n_thresh_keep:]] = 0`. -/
def zeroAt (v : List ℚ) (tz : List ℕ) : List ℚ := zeroAtFrom tz 0 v

/-- The body of `threshold_Mtriu` on the flattened buffer. `σ` is the contents
of `idx` after `np.random.shuffle(idx)`; only entries equal to `thresh` are
ever assigned, namely those listed in `σ` from position `n_thresh_keep` on. -/
def thresholdFlat (v : List ℚ) (n_keep : ℤ) (σ : List ℕ) : Option (List ℚ) :=
  match thresh v n_keep with
  | none => none
  | some t => some (zeroAt v (σ.drop (n_thresh_keep v n_keep t)))

/-- `buf.reshape(shape)`: `rows` rows of `cols` consecutive entries. -/
def reshapeRows (cols : ℕ) : ℕ → List ℚ → List (List ℚ)
  | 0, _ => []
  | r + 1, v => v.take cols :: reshapeRows cols r (v.drop cols)

/-- Full run of `threshold_Mtriu M_triu n_keep`, returning the pair
(returned matrix, contents of the argument array after the call).
`M_triu.reshape(-1)` yields a view of the argument's buffer, the fancy-indexing
assignment mutates that buffer in place, and the final
`M_triu_unzip.reshape(M_triu.shape)` is again a view of the same buffer, so the
returned matrix and the argument's contents after the call coincide. -/
def threshold_MtriuRun (M : List (List ℚ)) (n_keep : ℤ) (σ : List ℕ) :
    Option (List (List ℚ) × List (List ℚ)) :=
  (thresholdFlat (flatten M) n_keep σ).map
    (fun buf => (reshapeRows (M.headD []).length M.length buf,
                 reshapeRows (M.headD []).length M.length buf))

/-- The value returned by `threshold_Mtriu` (`none` models an uncaught
`IndexError` from `M_triu_unzip_sorted[-n_keep]`). -/
def threshold_Mtriu (M : List (List ℚ)) (n_keep : ℤ) (σ : List ℕ) :
    Option (List (List ℚ)) :=
  (threshold_MtriuRun M n_keep σ).map Prod.fst

/-- Contents of the argument array after the call (mutated through the
`reshape(-1)` view). -/
def threshold_MtriuArgAfter (M : List (List ℚ)) (n_keep : ℤ) (σ : List ℕ) :
    Option (List (List ℚ)) :=
  (threshold_MtriuRun M n_keep σ).map Prod.snd

/-- Flat indices of the strict-upper-triangle cells of an n x n matrix. -/
def upperIdx (n : ℕ) : List ℕ :=
  (List.range (n * n)).filter (fun i => decide (i / n < i % n))

/-- Number of strict-upper-triangle cells. -/
def candCount (n : ℕ) : ℕ := (upperIdx n).length

/-- The candidate (strict-upper-triangle) entries of the matrix. -/
def candList (M : List (List ℚ)) (n : ℕ) : List ℚ :=
  (upperIdx n).map (fun i => (flatten M).getD i 0)

/-- The matrix is an n x n grid. -/
def IsSquareMat (M : List (List ℚ)) (n : ℕ) : Prop :=
  M.length = n ∧ ∀ r ∈ M, r.length = n

/-- Precondition of `threshold_Mtriu`: only strict-upper-triangle cells may be
non-zero (the caller applies `np.triu(M, 1)` first). -/
def UpperOnly (M : List (List ℚ)) (n : ℕ) : Prop :=
  ∀ i < n * n, ¬ i / n < i % n → (flatten M).getD i 0 = 0

instance (M : List (List ℚ)) (n : ℕ) : Decidable (IsSquareMat M n) := by
  unfold IsSquareMat
  infer_instance

instance (M : List (List ℚ)) (n : ℕ) : Decidable (UpperOnly M n) := by
  unfold UpperOnly
  infer_instance

/-- Modelled from the spec: the k-th largest value among the
strict-upper-triangle entries of the matrix, ties counted by value. -/
def kthLargestCand (M : List (List ℚ)) (n : ℕ) (k : ℤ) : Option ℚ :=
  pyGet (npSort (candList M n)) (-k)

/-- Entry of a matrix at row `r`, column `c` (0 outside the grid). -/
def getEntry (M : List (List ℚ)) (r c : ℕ) : ℚ := (M.getD r []).getD c 0

/-- Number of non-zero entries among the strict-upper-triangle cells. -/
def candNonzeroCount (R : List (List ℚ)) (n : ℕ) : ℕ :=
  ((upperIdx n).filter (fun i => decide ((flatten R).getD i 0 ≠ 0))).length

/-- The modules imported by `threshold_matrix.py` (`os` is absent, although
`save_mat` and `save_png` both call `os.path.exists`). -/
def moduleImports : List String := ["numpy", "matplotlib.pylab", "argparse"]

/-- A Python runtime error; `nameError m` models `NameError: name m`. -/
inductive PyErr where
  | nameError : String → PyErr
deriving DecidableEq

/-- A file system: association list from path to stored matrix data. -/
def FileSys : Type := List (String × List (List ℚ))

/-- `save_mat`: evaluating the guard `os.path.exists(M_text_name)` looks up the
global name `os`, which the module never imports, so the call raises
`NameError` before touching the file system.  Had `os` been imported, an
existing target would be skipped and otherwise `M[1:,1:]` would be written
(5-decimal tab-separated text, modelled by the trimmed matrix data). -/
def save_mat (fs : FileSys) (M : List (List ℚ)) (M_text_name : String) :
    Except PyErr FileSys :=
  if moduleImports.contains "os" then
    if (fs.lookup M_text_name).isSome then .ok fs
    else .ok ((M_text_name, M.tail.map List.tail) :: fs)
  else .error (.nameError "os")

/-- `save_png`: same guard as `save_mat`, so the same `NameError`; otherwise it
would skip an existing target and else write a rendering of
`np.log1p(M[1:,1:])` (modelled by the trimmed source data it is rendered
from). -/
def save_png (fs : FileSys) (M : List (List ℚ)) (M_fig_name : String) :
    Except PyErr FileSys :=
  if moduleImports.contains "os" then
    if (fs.lookup M_fig_name).isSome then .ok fs
    else .ok ((M_fig_name, M.tail.map List.tail) :: fs)
  else .error (.nameError "os")

/-! ### Basic facts about the sorted buffer and the helpers -/

theorem perm_npSort (v : List ℚ) : (npSort v).Perm v :=
  List.perm_insertionSort _ v

theorem length_npSort (v : List ℚ) : (npSort v).length = v.length :=
  List.length_insertionSort _ v

theorem sorted_npSort (v : List ℚ) : (npSort v).Sorted (· ≤ ·) :=
  List.sorted_insertionSort _ v

theorem countP_npSort (p : ℚ → Bool) (v : List ℚ) :
    (npSort v).countP p = v.countP p :=
  (perm_npSort v).countP_eq p

theorem pyIdx_neg (s : List ℚ) (k : ℕ) (h1 : 1 ≤ k) :
    pyIdx s (-(k : ℤ)) = -(k : ℤ) + s.length := by
  unfold pyIdx
  have hneg : -(k : ℤ) < 0 := by omega
  rw [if_pos hneg]

theorem pyGet_neg (s : List ℚ) (k : ℕ) (h1 : 1 ≤ k) (h2 : k ≤ s.length) :
    pyGet s (-(k : ℤ)) = some (s.get ⟨s.length - k, by omega⟩) := by
  unfold pyGet
  have hidx := pyIdx_neg s k h1
  have hcond : 0 ≤ pyIdx s (-(k : ℤ)) ∧ pyIdx s (-(k : ℤ)) < (s.length : ℤ) := by
    rw [hidx]
    omega
  rw [dif_pos hcond]
  congr 1
  apply congrArg
  apply Fin.ext
  show (pyIdx s (-(k : ℤ))).toNat = s.length - k
  rw [hidx]
  omega

theorem pyDrop_neg (s : List ℚ) (k : ℕ) (h1 : 1 ≤ k) :
    pyDrop s (-(k : ℤ)) = s.drop (s.length - k) := by
  unfold pyDrop
  have hneg : -(k : ℤ) < 0 := by omega
  simp only [hneg, if_true]
  congr 1
  omega

theorem thresh_eq_get (v : List ℚ) (k : ℕ) (h1 : 1 ≤ k) (h2 : k ≤ v.length) :
    thresh v (k : ℤ) = some ((npSort v).get ⟨v.length - k, by
      rw [length_npSort]; omega⟩) := by
  unfold thresh
  rw [pyGet_neg (npSort v) k h1 (by rw [length_npSort]; omega)]
  congr 1
  apply congrArg
  apply Fin.ext
  simp only [length_npSort]

theorem keep_values_eq_drop (v : List ℚ) (k : ℕ) (h1 : 1 ≤ k) :
    keep_values v (k : ℤ) = (npSort v).drop (v.length - k) := by
  unfold keep_values
  rw [pyDrop_neg (npSort v) k h1, length_npSort]

theorem length_zeroAtFrom (tz : List ℕ) (c : ℕ) (v : List ℚ) :
    (zeroAtFrom tz c v).length = v.length := by
  induction v generalizing c with
  | nil => rfl
  | cons a as ih => simp [zeroAtFrom, ih]

theorem length_zeroAt (v : List ℚ) (tz : List ℕ) :
    (zeroAt v tz).length = v.length :=
  length_zeroAtFrom tz 0 v

theorem getD_zeroAtFrom (tz : List ℕ) (c : ℕ) (v : List ℚ) (i : ℕ)
    (hi : i < v.length) :
    (zeroAtFrom tz c v).getD i 0 = if (c + i) ∈ tz then 0 else v.getD i 0 := by
  induction v generalizing c i with
  | nil => simp at hi
  | cons a as ih =>
    cases i with
    | zero => simp [zeroAtFrom]
    | succ j =>
      have hj : j < as.length := by simpa using hi
      simp only [zeroAtFrom, List.getD_cons_succ]
      rw [ih (c + 1) j hj]
      have : c + 1 + j = c + (j + 1) := by omega
      rw [this]

theorem getD_zeroAt (v : List ℚ) (tz : List ℕ) (i : ℕ) (hi : i < v.length) :
    (zeroAt v tz).getD i 0 = if i ∈ tz then 0 else v.getD i 0 := by
  unfold zeroAt
  rw [getD_zeroAtFrom tz 0 v i hi]
  simp

theorem zeroAt_eq_self (v : List ℚ) (tz : List ℕ)
    (h : ∀ i ∈ tz, i < v.length → v.getD i 0 = 0) : zeroAt v tz = v := by
  apply List.ext_getElem (length_zeroAt v tz)
  intro i h1 h2
  have hi : i < v.length := h2
  have := getD_zeroAt v tz i hi
  rw [List.getD_eq_getElem _ _ h1, List.getD_eq_getElem _ _ h2] at this
  rw [this]
  by_cases hmem : i ∈ tz
  · rw [if_pos hmem]
    have h0 := h i hmem hi
    rw [List.getD_eq_getElem _ _ h2] at h0
    exact h0.symm
  · rw [if_neg hmem]

theorem zeroAt_nil (v : List ℚ) : zeroAt v [] = v :=
  zeroAt_eq_self v [] (by intro i hi; simp at hi)

theorem mem_argwhereEq (v : List ℚ) (t : ℚ) (i : ℕ) :
    i ∈ argwhereEq v t ↔ i < v.length ∧ v.getD i 0 = t := by
  unfold argwhereEq
  rw [List.mem_filter, List.mem_range]
  simp

theorem nodup_argwhereEq (v : List ℚ) (t : ℚ) : (argwhereEq v t).Nodup :=
  (List.nodup_range _).filter _

theorem map_getD_range (v : List ℚ) :
    (List.range v.length).map (fun i => v.getD i 0) = v := by
  apply List.ext_getElem (by simp)
  intro i h1 h2
  rw [List.getElem_map]
  rw [List.getElem_range]
  exact List.getD_eq_getElem v 0 h2

theorem length_argwhereEq (v : List ℚ) (t : ℚ) :
    (argwhereEq v t).length = v.countP (fun x => decide (x = t)) := by
  unfold argwhereEq
  rw [← List.countP_eq_length_filter]
  conv_rhs => rw [← map_getD_range v]
  rw [List.countP_map]
  rfl

/-! ### Index-and-count characterisation of a sorted list -/

theorem sorted_get_le (s : List ℚ) (hs : s.Sorted (· ≤ ·)) (i j : ℕ)
    (hij : i ≤ j) (hj : j < s.length) :
    s.get ⟨i, by omega⟩ ≤ s.get ⟨j, hj⟩ := by
  rcases Nat.lt_or_ge i j with hlt | hge
  · exact hs.rel_get_of_lt (Fin.mk_lt_mk.mpr hlt)
  · have hij2 : i = j := by omega
    subst hij2
    exact le_refl _

theorem sorted_countP_lt_le (s : List ℚ) (hs : s.Sorted (· ≤ ·)) (j : ℕ)
    (hj : j < s.length) (t : ℚ) (ht : s.get ⟨j, hj⟩ = t) :
    s.countP (fun x => decide (x < t)) ≤ j := by
  have hsplit : s.countP (fun x => decide (x < t)) =
      (s.take j).countP (fun x => decide (x < t)) +
      (s.drop j).countP (fun x => decide (x < t)) := by
    conv_lhs => rw [← List.take_append_drop j s]
    exact List.countP_append _ _ _
  have h2 : (s.drop j).countP (fun x => decide (x < t)) = 0 := by
    rw [List.countP_eq_zero]
    intro a ha
    rw [List.mem_iff_get] at ha
    obtain ⟨⟨i, hi⟩, rfl⟩ := ha
    have hlen : j + i < s.length := by
      have hh := hi
      rw [List.length_drop] at hh
      omega
    have hval : (s.drop j).get ⟨i, hi⟩ = s.get ⟨j + i, hlen⟩ := by
      simp [List.get_eq_getElem, List.getElem_drop]
    rw [hval]
    have hle : t ≤ s.get ⟨j + i, hlen⟩ := by
      rw [← ht]
      exact sorted_get_le s hs j (j + i) (by omega) hlen
    simp only [decide_eq_true_eq, not_lt]
    exact hle
  have h1 : (s.take j).countP (fun x => decide (x < t)) ≤ j := by
    refine le_trans (List.countP_le_length _) ?_
    rw [List.length_take]
    omega
  omega

theorem sorted_lt_countP_le (s : List ℚ) (hs : s.Sorted (· ≤ ·)) (j : ℕ)
    (hj : j < s.length) (t : ℚ) (ht : s.get ⟨j, hj⟩ = t) :
    j < s.countP (fun x => decide (x ≤ t)) := by
  have hsplit : s.countP (fun x => decide (x ≤ t)) =
      (s.take (j + 1)).countP (fun x => decide (x ≤ t)) +
      (s.drop (j + 1)).countP (fun x => decide (x ≤ t)) := by
    conv_lhs => rw [← List.take_append_drop (j + 1) s]
    exact List.countP_append _ _ _
  have hfull : (s.take (j + 1)).countP (fun x => decide (x ≤ t)) = j + 1 := by
    have hlen : (s.take (j + 1)).length = j + 1 := by
      rw [List.length_take]
      omega
    have hall : ∀ a ∈ s.take (j + 1), decide (a ≤ t) = true := by
      intro a ha
      rw [List.mem_take_iff_getElem] at ha
      obtain ⟨i, hm, rfl⟩ := ha
      have hi2 : i < s.length := Nat.lt_of_lt_of_le hm (min_le_right _ _)
      have hij : i ≤ j := by
        have := Nat.lt_of_lt_of_le hm (min_le_left _ _)
        omega
      have key : s.get ⟨i, hi2⟩ ≤ s.get ⟨j, hj⟩ := sorted_get_le s hs i j hij hj
      rw [ht] at key
      simpa using key
    rw [List.countP_eq_length.mpr hall, hlen]
  omega

theorem sorted_get_eq_of_countP (s : List ℚ) (hs : s.Sorted (· ≤ ·)) (j : ℕ)
    (hj : j < s.length) (y : ℚ)
    (h1 : s.countP (fun x => decide (x < y)) ≤ j)
    (h2 : j < s.countP (fun x => decide (x ≤ y))) :
    s.get ⟨j, hj⟩ = y := by
  rcases lt_trichotomy (s.get ⟨j, hj⟩) y with hlt | heq | hgt
  · have ha : j < s.countP (fun x => decide (x ≤ s.get ⟨j, hj⟩)) :=
      sorted_lt_countP_le s hs j hj _ rfl
    have hb : s.countP (fun x => decide (x ≤ s.get ⟨j, hj⟩)) ≤
        s.countP (fun x => decide (x < y)) := by
      apply List.countP_mono_left
      intro x _ hx
      simp only [decide_eq_true_eq] at hx ⊢
      exact lt_of_le_of_lt hx hlt
    omega
  · exact heq
  · have ha : s.countP (fun x => decide (x < s.get ⟨j, hj⟩)) ≤ j :=
      sorted_countP_lt_le s hs j hj _ rfl
    have hb : s.countP (fun x => decide (x ≤ y)) ≤
        s.countP (fun x => decide (x < s.get ⟨j, hj⟩)) := by
      apply List.countP_mono_left
      intro x _ hx
      simp only [decide_eq_true_eq] at hx ⊢
      exact lt_of_le_of_lt hx hgt
    omega

/-! ### Splitting counts at a value -/

theorem countP_eq_add_gt (l : List ℚ) (t : ℚ) (h : ∀ x ∈ l, t ≤ x) :
    l.countP (fun x => decide (x = t)) + l.countP (fun x => decide (t < x)) =
      l.length := by
  induction l with
  | nil => rfl
  | cons a as ih =>
    have ha : t ≤ a := h a (by simp)
    have has : ∀ x ∈ as, t ≤ x := fun x hx => h x (by simp [hx])
    have hih := ih has
    rw [List.length_cons]
    rcases eq_or_lt_of_le ha with heq | hlt
    · have c1 : List.countP (fun x => decide (x = t)) (a :: as) =
          List.countP (fun x => decide (x = t)) as + 1 :=
        List.countP_cons_of_pos _ _ (by simp [heq.symm])
      have c2 : List.countP (fun x => decide (t < x)) (a :: as) =
          List.countP (fun x => decide (t < x)) as :=
        List.countP_cons_of_neg _ _ (by simp [← heq])
      rw [c1, c2]
      omega
    · have c1 : List.countP (fun x => decide (x = t)) (a :: as) =
          List.countP (fun x => decide (x = t)) as :=
        List.countP_cons_of_neg _ _ (by simp [ne_of_gt hlt])
      have c2 : List.countP (fun x => decide (t < x)) (a :: as) =
          List.countP (fun x => decide (t < x)) as + 1 :=
        List.countP_cons_of_pos _ _ (by simp [hlt])
      rw [c1, c2]
      omega

theorem countP_le_split (l : List ℚ) (t : ℚ) :
    l.countP (fun x => decide (t ≤ x)) =
      l.countP (fun x => decide (x = t)) + l.countP (fun x => decide (t < x)) := by
  induction l with
  | nil => rfl
  | cons a as ih =>
    rcases lt_trichotomy t a with hlt | heq | hgt
    · have c0 : List.countP (fun x => decide (t ≤ x)) (a :: as) =
          List.countP (fun x => decide (t ≤ x)) as + 1 :=
        List.countP_cons_of_pos _ _ (by simp [le_of_lt hlt])
      have c1 : List.countP (fun x => decide (x = t)) (a :: as) =
          List.countP (fun x => decide (x = t)) as :=
        List.countP_cons_of_neg _ _ (by simp [ne_of_gt hlt])
      have c2 : List.countP (fun x => decide (t < x)) (a :: as) =
          List.countP (fun x => decide (t < x)) as + 1 :=
        List.countP_cons_of_pos _ _ (by simp [hlt])
      rw [c0, c1, c2]
      omega
    · have c0 : List.countP (fun x => decide (t ≤ x)) (a :: as) =
          List.countP (fun x => decide (t ≤ x)) as + 1 :=
        List.countP_cons_of_pos _ _ (by simp [le_of_eq heq])
      have c1 : List.countP (fun x => decide (x = t)) (a :: as) =
          List.countP (fun x => decide (x = t)) as + 1 :=
        List.countP_cons_of_pos _ _ (by simp [heq.symm])
      have c2 : List.countP (fun x => decide (t < x)) (a :: as) =
          List.countP (fun x => decide (t < x)) as :=
        List.countP_cons_of_neg _ _ (by simp [← heq])
      rw [c0, c1, c2]
      omega
    · have c0 : List.countP (fun x => decide (t ≤ x)) (a :: as) =
          List.countP (fun x => decide (t ≤ x)) as :=
        List.countP_cons_of_neg _ _ (by simp [not_le.mpr hgt])
      have c1 : List.countP (fun x => decide (x = t)) (a :: as) =
          List.countP (fun x => decide (x = t)) as :=
        List.countP_cons_of_neg _ _ (by simp [ne_of_lt hgt])
      have c2 : List.countP (fun x => decide (t < x)) (a :: as) =
          List.countP (fun x => decide (t < x)) as :=
        List.countP_cons_of_neg _ _ (by simp [not_lt.mpr (le_of_lt hgt)])
      rw [c0, c1, c2]
      omega

/-! ### The flattened matrix and its candidate entries -/

theorem length_flatten (M : List (List ℚ)) (n : ℕ) (hsq : IsSquareMat M n) :
    (flatten M).length = n * n := by
  obtain ⟨hlen, hrow⟩ := hsq
  unfold flatten
  rw [List.length_join]
  have hmap : M.map List.length = List.replicate n n := by
    rw [List.eq_replicate_iff]
    constructor
    · simp [hlen]
    · intro b hb
      rw [List.mem_map] at hb
      obtain ⟨r, hr, rfl⟩ := hb
      exact hrow r hr
  rw [hmap, List.sum_replicate, smul_eq_mul]

theorem length_candList (M : List (List ℚ)) (n : ℕ) :
    (candList M n).length = candCount n := by
  unfold candList candCount
  rw [List.length_map]

theorem candCount_le (n : ℕ) : candCount n ≤ n * n := by
  unfold candCount upperIdx
  refine le_trans (List.length_filter_le _ _) ?_
  rw [List.length_range]

theorem flatten_perm (M : List (List ℚ)) (n : ℕ) (hsq : IsSquareMat M n)
    (hup : UpperOnly M n) :
    (flatten M).Perm (candList M n ++ List.replicate (n * n - candCount n) 0) := by
  have hN := length_flatten M n hsq
  have hv : (List.range (n * n)).map (fun i => (flatten M).getD i 0) = flatten M := by
    rw [← hN]
    exact map_getD_range (flatten M)
  have hperm := List.filter_append_perm
    (fun i => decide (i / n < i % n)) (List.range (n * n))
  have hmap := hperm.map (fun i => (flatten M).getD i 0)
  rw [List.map_append, hv] at hmap
  have hc : List.map (fun i => (flatten M).getD i 0)
      ((List.range (n * n)).filter (fun i => decide (i / n < i % n))) =
      candList M n := rfl
  have hz : List.map (fun i => (flatten M).getD i 0)
      ((List.range (n * n)).filter (fun i => !decide (i / n < i % n))) =
      List.replicate (n * n - candCount n) 0 := by
    rw [List.eq_replicate_iff]
    constructor
    · rw [List.length_map]
      have hlen := hperm.length_eq
      rw [List.length_append, List.length_range] at hlen
      unfold candCount upperIdx
      omega
    · intro b hb
      rw [List.mem_map] at hb
      obtain ⟨i, hi, rfl⟩ := hb
      rw [List.mem_filter, List.mem_range] at hi
      obtain ⟨hilt, hip⟩ := hi
      apply hup i hilt
      simpa using hip
  rw [hc, hz] at hmap
  exact hmap.symm

theorem countP_flatten_eq (M : List (List ℚ)) (n : ℕ) (hsq : IsSquareMat M n)
    (hup : UpperOnly M n) (p : ℚ → Bool) :
    (flatten M).countP p = (candList M n).countP p +
      (if p 0 then n * n - candCount n else 0) := by
  rw [(flatten_perm M n hsq hup).countP_eq p, List.countP_append,
    List.countP_replicate]

/-! ### The strict upper triangle occupies at most half the cells -/

theorem transpose_div (n i : ℕ) (hn : 0 < n) (hi : i < n * n) :
    ((i % n) * n + i / n) / n = i % n ∧ ((i % n) * n + i / n) % n = i / n := by
  have hidiv : i / n < n := Nat.div_lt_of_lt_mul hi
  constructor
  · have h : (i % n) * n + i / n = i / n + n * (i % n) := by ring
    rw [h, Nat.add_mul_div_left _ _ hn, Nat.div_eq_of_lt hidiv, Nat.zero_add]
  · have h : (i % n) * n + i / n = i / n + (i % n) * n := by ring
    rw [h, Nat.add_mul_mod_self_right, Nat.mod_eq_of_lt hidiv]

theorem mem_upperIdx (n i : ℕ) :
    i ∈ upperIdx n ↔ i < n * n ∧ i / n < i % n := by
  unfold upperIdx
  rw [List.mem_filter, List.mem_range]
  simp

theorem two_candCount_le (n : ℕ) : 2 * candCount n ≤ n * n := by
  rcases Nat.eq_zero_or_pos n with hn | hn
  · subst hn
    simp [candCount, upperIdx]
  have hsum := (List.filter_append_perm
    (fun i => decide (i / n < i % n)) (List.range (n * n))).length_eq
  rw [List.length_append, List.length_range] at hsum
  have hmapsub : (upperIdx n).map (fun i => (i % n) * n + i / n) ⊆
      (List.range (n * n)).filter (fun i => !decide (i / n < i % n)) := by
    intro x hx
    rw [List.mem_map] at hx
    obtain ⟨i, hi, rfl⟩ := hx
    rw [mem_upperIdx] at hi
    obtain ⟨hilt, hiup⟩ := hi
    have hidiv : i / n < n := Nat.div_lt_of_lt_mul hilt
    have himod : i % n < n := Nat.mod_lt i hn
    obtain ⟨hd, hm⟩ := transpose_div n i hn hilt
    rw [List.mem_filter, List.mem_range]
    constructor
    · calc (i % n) * n + i / n < (i % n) * n + n := by omega
        _ = (i % n + 1) * n := by ring
        _ ≤ n * n := Nat.mul_le_mul_right n (by omega)
    · rw [hd, hm]
      simp only [Bool.not_eq_eq_eq_not, Bool.not_true, decide_eq_false_iff_not]
      omega
  have hnodup : ((upperIdx n).map (fun i => (i % n) * n + i / n)).Nodup := by
    apply List.Nodup.map_on ?_ ((List.nodup_range _).filter _)
    intro x hx y hy hxy
    have hx1 : x < n * n := by
      have hx2 := hx
      rw [List.mem_filter, List.mem_range] at hx2
      exact hx2.1
    have hy1 : y < n * n := by
      have hy2 := hy
      rw [List.mem_filter, List.mem_range] at hy2
      exact hy2.1
    obtain ⟨hd1, hm1⟩ := transpose_div n x hn hx1
    obtain ⟨hd2, hm2⟩ := transpose_div n y hn hy1
    have e1 : x % n = y % n := by rw [← hd1, ← hd2, hxy]
    have e2 : x / n = y / n := by rw [← hm1, ← hm2, hxy]
    have e3 : n * (x / n) = n * (y / n) := by rw [e2]
    have ex := Nat.div_add_mod x n
    have ey := Nat.div_add_mod y n
    omega
  have hle := (List.subperm_of_subset hnodup hmapsub).length_le
  rw [List.length_map] at hle
  unfold upperIdx at hle
  unfold candCount upperIdx
  omega

/-! ### Characterising `thresh` and `n_thresh_keep` -/

theorem thresholdFlat_some (v : List ℚ) (nk : ℤ) (σ : List ℕ) (t : ℚ)
    (ht : thresh v nk = some t) :
    thresholdFlat v nk σ = some (zeroAt v (σ.drop (n_thresh_keep v nk t))) := by
  unfold thresholdFlat
  rw [ht]

theorem n_thresh_keep_add_gt (v : List ℚ) (k : ℕ) (t : ℚ)
    (h1 : 1 ≤ k) (h2 : k ≤ v.length) (ht : thresh v (k : ℤ) = some t) :
    n_thresh_keep v (k : ℤ) t + v.countP (fun x => decide (t < x)) = k := by
  have hslen : (npSort v).length = v.length := length_npSort v
  have hjlt : v.length - k < (npSort v).length := by omega
  have hsget := thresh_eq_get v k h1 h2
  rw [ht] at hsget
  have htval : (npSort v).get ⟨v.length - k, hjlt⟩ = t :=
    (Option.some.inj hsget).symm
  have hge : ∀ x ∈ (npSort v).drop (v.length - k), t ≤ x := by
    intro x hx
    rw [List.mem_iff_get] at hx
    obtain ⟨⟨i, hi⟩, rfl⟩ := hx
    have hlen2 : (v.length - k) + i < (npSort v).length := by
      rw [List.length_drop] at hi
      omega
    have hval : ((npSort v).drop (v.length - k)).get ⟨i, hi⟩ =
        (npSort v).get ⟨(v.length - k) + i, hlen2⟩ := by
      simp [List.get_eq_getElem, List.getElem_drop]
    rw [hval, ← htval]
    exact sorted_get_le _ (sorted_npSort v) _ _ (by omega) hlen2
  have hcount := countP_eq_add_gt ((npSort v).drop (v.length - k)) t hge
  have hdlen : ((npSort v).drop (v.length - k)).length = k := by
    rw [List.length_drop]
    omega
  have htake : ((npSort v).take (v.length - k)).countP
      (fun x => decide (t < x)) = 0 := by
    rw [List.countP_eq_zero]
    intro a ha
    rw [List.mem_take_iff_getElem] at ha
    obtain ⟨i, hm, rfl⟩ := ha
    have hi2 : i < (npSort v).length := Nat.lt_of_lt_of_le hm (min_le_right _ _)
    have hij : i ≤ v.length - k := by
      have := Nat.lt_of_lt_of_le hm (min_le_left _ _)
      omega
    have key : (npSort v).get ⟨i, hi2⟩ ≤ (npSort v).get ⟨v.length - k, hjlt⟩ :=
      sorted_get_le _ (sorted_npSort v) _ _ hij hjlt
    rw [htval] at key
    simp only [decide_eq_true_eq, not_lt]
    simpa using key
  have hsplit : (npSort v).countP (fun x => decide (t < x)) =
      ((npSort v).take (v.length - k)).countP (fun x => decide (t < x)) +
      ((npSort v).drop (v.length - k)).countP (fun x => decide (t < x)) := by
    conv_lhs => rw [← List.take_append_drop (v.length - k) (npSort v)]
    exact List.countP_append _ _ _
  have hnv : v.countP (fun x => decide (t < x)) =
      (npSort v).countP (fun x => decide (t < x)) :=
    (countP_npSort _ v).symm
  have hntk : n_thresh_keep v (k : ℤ) t =
      ((npSort v).drop (v.length - k)).countP (fun x => decide (x = t)) := by
    unfold n_thresh_keep
    rw [keep_values_eq_drop v k h1]
  omega

theorem countP_flatten_of_zero_false (M : List (List ℚ)) (n : ℕ)
    (hsq : IsSquareMat M n) (hup : UpperOnly M n) (p : ℚ → Bool)
    (hp : p 0 = false) :
    (flatten M).countP p = (candList M n).countP p := by
  rw [countP_flatten_eq M n hsq hup p, hp]
  simp

theorem thresh_nonneg (M : List (List ℚ)) (n : ℕ) (k : ℕ) (t : ℚ)
    (hsq : IsSquareMat M n) (hup : UpperOnly M n)
    (h1 : 1 ≤ k) (h2 : k ≤ candCount n)
    (ht : thresh (flatten M) (k : ℤ) = some t) : 0 ≤ t := by
  by_contra hneg
  push_neg at hneg
  have hN := length_flatten M n hsq
  have hkN : k ≤ (flatten M).length := by
    rw [hN]
    exact le_trans h2 (candCount_le n)
  have hjlt : (flatten M).length - k < (npSort (flatten M)).length := by
    rw [length_npSort]
    omega
  have hsget := thresh_eq_get (flatten M) k h1 hkN
  rw [ht] at hsget
  have htval : (npSort (flatten M)).get ⟨(flatten M).length - k, hjlt⟩ = t :=
    (Option.some.inj hsget).symm
  have hlt := sorted_lt_countP_le _ (sorted_npSort (flatten M)) _ hjlt t htval
  have hmono : (npSort (flatten M)).countP (fun x => decide (x ≤ t)) ≤
      (npSort (flatten M)).countP (fun x => decide (x < 0)) := by
    apply List.countP_mono_left
    intro x _ hx
    simp only [decide_eq_true_eq] at hx ⊢
    exact lt_of_le_of_lt hx hneg
  have hneg_le : (flatten M).countP (fun x => decide (x < 0)) ≤ candCount n := by
    rw [countP_flatten_of_zero_false M n hsq hup _ (by norm_num)]
    exact le_trans (List.countP_le_length _) (le_of_eq (length_candList M n))
  have hc := countP_npSort (fun x => decide (x < 0)) (flatten M)
  have h2T := two_candCount_le n
  omega

/-! ### Reshaping the buffer back to the matrix shape -/

theorem reshapeRows_flatten_aux (c : ℕ) (M : List (List ℚ))
    (hrow : ∀ r ∈ M, r.length = c) :
    reshapeRows c M.length (flatten M) = M := by
  induction M with
  | nil => rfl
  | cons r rs ih =>
    have hr : r.length = c := hrow r (by simp)
    have hrs : ∀ x ∈ rs, x.length = c := fun x hx => hrow x (by simp [hx])
    have hfl : flatten (r :: rs) = r ++ flatten rs := rfl
    have hstep : reshapeRows c (rs.length + 1) (r ++ flatten rs) =
        (r ++ flatten rs).take c :: reshapeRows c rs.length
          ((r ++ flatten rs).drop c) := rfl
    have htk : (r ++ flatten rs).take c = r := by
      rw [← hr]
      exact List.take_left r (flatten rs)
    have hdr : (r ++ flatten rs).drop c = flatten rs := by
      rw [← hr]
      exact List.drop_left r (flatten rs)
    rw [List.length_cons, hfl, hstep, htk, hdr, ih hrs]

theorem reshapeRows_flatten (M : List (List ℚ)) (n : ℕ) (hsq : IsSquareMat M n) :
    reshapeRows (M.headD []).length M.length (flatten M) = M := by
  obtain ⟨hlen, hrow⟩ := hsq
  apply reshapeRows_flatten_aux
  intro r hr
  cases M with
  | nil => simp at hr
  | cons r0 rs =>
    have h0 : r0.length = n := hrow r0 (by simp)
    have hx : r.length = n := hrow r hr
    rw [hx, List.headD_cons, h0]

/-! ### Bridging the flat buffer and the matrix views -/

theorem mem_drop_sigma (v : List ℚ) (t : ℚ) (σ : List ℕ) (m : ℕ)
    (hσ : σ.Perm (argwhereEq v t)) (i : ℕ) (hi : i ∈ σ.drop m) :
    i < v.length ∧ v.getD i 0 = t := by
  have h1 : i ∈ σ := List.drop_subset m σ hi
  have h2 : i ∈ argwhereEq v t := hσ.mem_iff.mp h1
  exact (mem_argwhereEq v t i).mp h2

theorem mem_sigma (v : List ℚ) (t : ℚ) (σ : List ℕ)
    (hσ : σ.Perm (argwhereEq v t)) (i : ℕ) (hi : i ∈ σ) :
    i < v.length ∧ v.getD i 0 = t :=
  (mem_argwhereEq v t i).mp (hσ.mem_iff.mp hi)

theorem n_thresh_keep_le (v : List ℚ) (k : ℕ) (t : ℚ) (h1 : 1 ≤ k) :
    n_thresh_keep v (k : ℤ) t ≤ v.countP (fun x => decide (x = t)) := by
  unfold n_thresh_keep
  rw [keep_values_eq_drop v k h1]
  rw [← countP_npSort (fun x => decide (x = t)) v]
  conv_rhs => rw [← List.take_append_drop (v.length - k) (npSort v)]
  rw [List.countP_append]
  omega

theorem cand_mem_flatten (M : List (List ℚ)) (n : ℕ) (hsq : IsSquareMat M n) :
    ∀ b ∈ candList M n, b ∈ flatten M := by
  intro b hb
  unfold candList at hb
  rw [List.mem_map] at hb
  obtain ⟨i, hi, rfl⟩ := hb
  rw [mem_upperIdx] at hi
  have hiN : i < (flatten M).length := by
    rw [length_flatten M n hsq]
    exact hi.1
  rw [List.getD_eq_getElem _ _ hiN]
  exact List.getElem_mem hiN

theorem countP_flatten_of_zero_true (M : List (List ℚ)) (n : ℕ)
    (hsq : IsSquareMat M n) (hup : UpperOnly M n) (p : ℚ → Bool)
    (hp : p 0 = true) :
    (flatten M).countP p = (candList M n).countP p + (n * n - candCount n) := by
  rw [countP_flatten_eq M n hsq hup p, hp]
  simp

theorem rowcol_lt (n r c : ℕ) (hr : r < n) (hc : c < n) : r * n + c < n * n := by
  calc r * n + c < r * n + n := by omega
    _ = (r + 1) * n := by ring
    _ ≤ n * n := Nat.mul_le_mul_right n (by omega)

theorem getEntry_reshapeRows (c rows : ℕ) (v : List ℚ) (r j : ℕ)
    (hr : r < rows) (hj : j < c) :
    getEntry (reshapeRows c rows v) r j = v.getD (r * c + j) 0 := by
  induction rows generalizing r v with
  | zero => omega
  | succ rows ih =>
    cases r with
    | zero =>
      show (v.take c).getD j 0 = v.getD (0 * c + j) 0
      rw [List.getD_eq_getElem?_getD, List.getD_eq_getElem?_getD,
        List.getElem?_take, if_pos hj]
      have hz : 0 * c + j = j := by ring
      rw [hz]
    | succ r =>
      show getEntry (reshapeRows c rows (v.drop c)) r j = v.getD ((r + 1) * c + j) 0
      rw [ih (v.drop c) r (by omega)]
      rw [List.getD_eq_getElem?_getD, List.getD_eq_getElem?_getD,
        List.getElem?_drop]
      have hz : c + (r * c + j) = (r + 1) * c + j := by ring
      rw [hz]

theorem getEntry_flatten_aux (c : ℕ) (M : List (List ℚ))
    (hrow : ∀ r ∈ M, r.length = c) (i j : ℕ) (hj : j < c) :
    getEntry M i j = (flatten M).getD (i * c + j) 0 := by
  induction M generalizing i with
  | nil =>
    show (([] : List (List ℚ)).getD i []).getD j 0 = ([] : List ℚ).getD (i * c + j) 0
    cases i <;> rfl
  | cons row rs ih =>
    have hrowlen : row.length = c := hrow row (by simp)
    have hrs : ∀ r ∈ rs, r.length = c := fun r hr => hrow r (by simp [hr])
    cases i with
    | zero =>
      show row.getD j 0 = (row ++ flatten rs).getD (0 * c + j) 0
      have hz : 0 * c + j = j := by ring
      rw [hz, List.getD_eq_getElem?_getD, List.getD_eq_getElem?_getD,
        List.getElem?_append, if_pos (by omega)]
    | succ i =>
      show getEntry rs i j = (row ++ flatten rs).getD ((i + 1) * c + j) 0
      rw [ih hrs i]
      have hle : row.length ≤ (i + 1) * c + j := by
        rw [hrowlen]
        have h1 : c ≤ (i + 1) * c := Nat.le_mul_of_pos_left c (by omega)
        omega
      rw [List.getD_eq_getElem?_getD, List.getD_eq_getElem?_getD,
        List.getElem?_append_right hle]
      have hz : (i + 1) * c + j - row.length = i * c + j := by
        rw [hrowlen]
        have hsplit : (i + 1) * c = i * c + c := by ring
        omega
      rw [hz]

theorem getEntry_flatten (M : List (List ℚ)) (n : ℕ) (hsq : IsSquareMat M n)
    (r c : ℕ) (hc : c < n) :
    getEntry M r c = (flatten M).getD (r * n + c) 0 := by
  apply getEntry_flatten_aux n M hsq.2 r c hc

theorem threshold_Mtriu_some (M : List (List ℚ)) (nk : ℤ) (σ : List ℕ)
    (out : List ℚ) (hout : thresholdFlat (flatten M) nk σ = some out) :
    threshold_Mtriu M nk σ =
      some (reshapeRows (M.headD []).length M.length out) := by
  unfold threshold_Mtriu threshold_MtriuRun
  rw [hout]
  rfl

theorem getEntry_reshape_out (M : List (List ℚ)) (n : ℕ) (out : List ℚ)
    (hsq : IsSquareMat M n) (r c : ℕ) (hr : r < n) (hc : c < n) :
    getEntry (reshapeRows (M.headD []).length M.length out) r c =
      out.getD (r * n + c) 0 := by
  obtain ⟨hlen, hrow⟩ := hsq
  cases M with
  | nil =>
    exfalso
    rw [List.length_nil] at hlen
    omega
  | cons r0 rs =>
    have h0 : r0.length = n := hrow r0 (by simp)
    rw [List.headD_cons, h0]
    exact getEntry_reshapeRows n (r0 :: rs).length out r c (by omega) hc

theorem threshold_Mtriu_none_iff (M : List (List ℚ)) (nk : ℤ) (σ : List ℕ) :
    threshold_Mtriu M nk σ = none ↔ thresh (flatten M) nk = none := by
  unfold threshold_Mtriu threshold_MtriuRun thresholdFlat
  cases h : thresh (flatten M) nk with
  | none => simp
  | some t => simp

theorem thresh_none_iff (v : List ℚ) (nk : ℤ) :
    thresh v nk = none ↔ ((v.length : ℤ) < nk ∨ nk < 1 - (v.length : ℤ)) := by
  unfold thresh pyGet
  have hlen : ((npSort v).length : ℤ) = (v.length : ℤ) := by
    rw [length_npSort]
  by_cases hc : 0 ≤ pyIdx (npSort v) (-nk) ∧
      pyIdx (npSort v) (-nk) < ((npSort v).length : ℤ)
  · rw [dif_pos hc]
    constructor
    · intro h
      exact absurd h (by simp)
    · intro h
      exfalso
      unfold pyIdx at hc
      split_ifs at hc <;> omega
  · rw [dif_neg hc]
    constructor
    · intro _
      rw [Decidable.not_and_iff_or_not] at hc
      unfold pyIdx at hc
      rcases hc with hc | hc <;> split_ifs at hc <;> omega
    · intro _
      rfl

/-! ### Claim theorems -/

/-- C4: for every valid input matrix and valid keep count, and for every
outcome of the random shuffle, `threshold_Mtriu` keeps — at their original
value `thresh` — exactly `k - (number of entries strictly greater than
thresh)` of the positions holding exactly `thresh` (the first `n_thresh_keep`
positions of the shuffled index list), and sets every other position holding
`thresh` to zero. -/
theorem C4_tie_break_exact_count (M : List (List ℚ)) (n k : ℕ) (σ : List ℕ)
    (t : ℚ) (hsq : IsSquareMat M n) (hup : UpperOnly M n)
    (h1 : 1 ≤ k) (h2 : k ≤ candCount n)
    (ht : thresh (flatten M) (k : ℤ) = some t)
    (hσ : σ.Perm (argwhereEq (flatten M) t)) :
    ∃ R, threshold_Mtriu M (k : ℤ) σ = some R ∧
      n_thresh_keep (flatten M) (k : ℤ) t +
        (flatten M).countP (fun x => decide (t < x)) = k ∧
      (σ.take (n_thresh_keep (flatten M) (k : ℤ) t)).length =
        n_thresh_keep (flatten M) (k : ℤ) t ∧
      (∀ i ∈ σ.take (n_thresh_keep (flatten M) (k : ℤ) t),
        (flatten M).getD i 0 = t ∧
          getEntry R (i / n) (i % n) = (flatten M).getD i 0) ∧
      (∀ i ∈ σ, i ∉ σ.take (n_thresh_keep (flatten M) (k : ℤ) t) →
        getEntry R (i / n) (i % n) = 0) := by
  have hN := length_flatten M n hsq
  have hkN : k ≤ (flatten M).length := by
    rw [hN]
    exact le_trans h2 (candCount_le n)
  have hout := thresholdFlat_some (flatten M) (k : ℤ) σ t ht
  have hσlen : σ.length = (flatten M).countP (fun x => decide (x = t)) := by
    rw [hσ.length_eq, length_argwhereEq]
  have hnodup : σ.Nodup := (hσ.nodup_iff).mpr (nodup_argwhereEq _ _)
  refine ⟨_, threshold_Mtriu_some M (k : ℤ) σ _ hout, ?_, ?_, ?_, ?_⟩
  · exact n_thresh_keep_add_gt (flatten M) k t h1 hkN ht
  · rw [List.length_take]
    have hm := n_thresh_keep_le (flatten M) k t h1
    omega
  · intro i hi
    have hiσ : i ∈ σ := List.take_subset _ σ hi
    obtain ⟨hilt, hival⟩ := mem_sigma (flatten M) t σ hσ i hiσ
    refine ⟨hival, ?_⟩
    have hiN : i < n * n := by
      rw [← hN]
      exact hilt
    have hnpos : 0 < n := by
      rcases Nat.eq_zero_or_pos n with h0 | h0
      · subst h0
        omega
      · exact h0
    have hir : i / n < n := Nat.div_lt_of_lt_mul hiN
    have hic : i % n < n := Nat.mod_lt i hnpos
    have hieq : (i / n) * n + i % n = i := by
      have hdm := Nat.div_add_mod i n
      have hcm : (i / n) * n = n * (i / n) := Nat.mul_comm _ _
      omega
    rw [getEntry_reshape_out M n _ hsq (i / n) (i % n) hir hic, hieq]
    rw [getD_zeroAt _ _ i hilt]
    have hdisj := List.disjoint_take_drop hnodup
      (le_refl (n_thresh_keep (flatten M) (k : ℤ) t))
    rw [if_neg (fun hmem => hdisj hi hmem)]
  · intro i hiσ hnotin
    obtain ⟨hilt, hival⟩ := mem_sigma (flatten M) t σ hσ i hiσ
    have hiN : i < n * n := by
      rw [← hN]
      exact hilt
    have hnpos : 0 < n := by
      rcases Nat.eq_zero_or_pos n with h0 | h0
      · subst h0
        omega
      · exact h0
    have hir : i / n < n := Nat.div_lt_of_lt_mul hiN
    have hic : i % n < n := Nat.mod_lt i hnpos
    have hieq : (i / n) * n + i % n = i := by
      have hdm := Nat.div_add_mod i n
      have hcm : (i / n) * n = n * (i / n) := Nat.mul_comm _ _
      omega
    have hidrop : i ∈ σ.drop (n_thresh_keep (flatten M) (k : ℤ) t) := by
      have happ := List.take_append_drop (n_thresh_keep (flatten M) (k : ℤ) t) σ
      have hmem : i ∈ σ.take (n_thresh_keep (flatten M) (k : ℤ) t) ++
          σ.drop (n_thresh_keep (flatten M) (k : ℤ) t) := by
        rw [happ]
        exact hiσ
      rcases List.mem_append.mp hmem with h | h
      · exact absurd h hnotin
      · exact h
    rw [getEntry_reshape_out M n _ hsq (i / n) (i % n) hir hic, hieq]
    rw [getD_zeroAt _ _ i hilt, if_pos hidrop]

/-- C4 witness: the theorem applied to the concrete matrix
`[[0,1,2],[0,0,3],[0,0,0]]` with `k = 2` (thresh 2, tie positions `[2]`). -/
theorem C4_tie_break_exact_count_witness :
    ∃ R, threshold_Mtriu [[0,1,2],[0,0,3],[0,0,0]] ((2 : ℕ) : ℤ) [2] = some R ∧
      n_thresh_keep (flatten [[0,1,2],[0,0,3],[0,0,0]]) ((2 : ℕ) : ℤ) 2 +
        (flatten [[0,1,2],[0,0,3],[0,0,0]]).countP (fun x => decide (2 < x)) = 2 ∧
      (([2] : List ℕ).take
        (n_thresh_keep (flatten [[0,1,2],[0,0,3],[0,0,0]]) ((2 : ℕ) : ℤ) 2)).length =
        n_thresh_keep (flatten [[0,1,2],[0,0,3],[0,0,0]]) ((2 : ℕ) : ℤ) 2 ∧
      (∀ i ∈ ([2] : List ℕ).take
          (n_thresh_keep (flatten [[0,1,2],[0,0,3],[0,0,0]]) ((2 : ℕ) : ℤ) 2),
        (flatten [[0,1,2],[0,0,3],[0,0,0]]).getD i 0 = 2 ∧
          getEntry R (i / 3) (i % 3) =
            (flatten [[0,1,2],[0,0,3],[0,0,0]]).getD i 0) ∧
      (∀ i ∈ ([2] : List ℕ), i ∉ ([2] : List ℕ).take
          (n_thresh_keep (flatten [[0,1,2],[0,0,3],[0,0,0]]) ((2 : ℕ) : ℤ) 2) →
        getEntry R (i / 3) (i % 3) = 0) :=
  C4_tie_break_exact_count [[0,1,2],[0,0,3],[0,0,0]] 3 2 [2] 2
    (by decide) (by decide) (by decide) (by decide) (by decide) (by decide)

/-- C7: for every valid input matrix and valid keep count, and for every
outcome of the random tie-break, every entry strictly greater than the
computed threshold value is left unchanged (kept non-zero at its original
value) in the matrix returned by `threshold_Mtriu`. -/
theorem C7_above_thresh_kept (M : List (List ℚ)) (n k : ℕ) (σ : List ℕ)
    (t : ℚ) (hsq : IsSquareMat M n) (hup : UpperOnly M n)
    (h1 : 1 ≤ k) (h2 : k ≤ candCount n)
    (ht : thresh (flatten M) (k : ℤ) = some t)
    (hσ : σ.Perm (argwhereEq (flatten M) t)) :
    ∃ R, threshold_Mtriu M (k : ℤ) σ = some R ∧
      ∀ r c, r < n → c < n → t < getEntry M r c →
        getEntry R r c = getEntry M r c ∧ getEntry R r c ≠ 0 := by
  have hN := length_flatten M n hsq
  have htnn := thresh_nonneg M n k t hsq hup h1 h2 ht
  have hout := thresholdFlat_some (flatten M) (k : ℤ) σ t ht
  refine ⟨_, threshold_Mtriu_some M (k : ℤ) σ _ hout, ?_⟩
  intro r c hr hc hgt
  have hi : r * n + c < (flatten M).length := by
    rw [hN]
    exact rowcol_lt n r c hr hc
  have hMentry := getEntry_flatten M n hsq r c hc
  rw [hMentry] at hgt
  rw [getEntry_reshape_out M n _ hsq r c hr hc, hMentry, getD_zeroAt _ _ _ hi]
  have hnotmem : (r * n + c) ∉
      σ.drop (n_thresh_keep (flatten M) (k : ℤ) t) := by
    intro hmem
    have hval := (mem_drop_sigma _ _ _ _ hσ _ hmem).2
    rw [hval] at hgt
    exact lt_irrefl t hgt
  rw [if_neg hnotmem]
  refine ⟨rfl, ?_⟩
  intro h0
  rw [h0] at hgt
  exact absurd (lt_of_le_of_lt htnn hgt) (lt_irrefl 0)

/-- C7 witness: the theorem applied to `[[0,1,2],[0,0,3],[0,0,0]]`, `k = 2`
(thresh 2): the entry 3 at cell (1, 2) is strictly above the threshold and is
kept. -/
theorem C7_above_thresh_kept_witness :
    ∃ R, threshold_Mtriu [[0,1,2],[0,0,3],[0,0,0]] ((2 : ℕ) : ℤ) [2] = some R ∧
      ∀ r c, r < 3 → c < 3 → 2 < getEntry [[0,1,2],[0,0,3],[0,0,0]] r c →
        getEntry R r c = getEntry [[0,1,2],[0,0,3],[0,0,0]] r c ∧
          getEntry R r c ≠ 0 :=
  C7_above_thresh_kept [[0,1,2],[0,0,3],[0,0,0]] 3 2 [2] 2
    (by decide) (by decide) (by decide) (by decide) (by decide) (by decide)

/-- C10: for every valid input matrix and valid keep count, and every tie-break
outcome, the only cells `threshold_Mtriu` ever modifies are cells whose input
value equals the computed threshold, and each modification writes zero; every
other cell keeps its input value, so every non-zero entry of the result equals
the corresponding input entry. -/
theorem C10_frame_only_thresh_zeroed (M : List (List ℚ)) (n k : ℕ)
    (σ : List ℕ) (t : ℚ) (hsq : IsSquareMat M n) (hup : UpperOnly M n)
    (h1 : 1 ≤ k) (h2 : k ≤ candCount n)
    (ht : thresh (flatten M) (k : ℤ) = some t)
    (hσ : σ.Perm (argwhereEq (flatten M) t)) :
    ∃ R, threshold_Mtriu M (k : ℤ) σ = some R ∧
      ∀ r c, r < n → c < n →
        (getEntry R r c = getEntry M r c ∨
          (getEntry M r c = t ∧ getEntry R r c = 0)) ∧
        (getEntry R r c ≠ 0 → getEntry R r c = getEntry M r c) := by
  have hN := length_flatten M n hsq
  have hout := thresholdFlat_some (flatten M) (k : ℤ) σ t ht
  refine ⟨_, threshold_Mtriu_some M (k : ℤ) σ _ hout, ?_⟩
  intro r c hr hc
  have hi : r * n + c < (flatten M).length := by
    rw [hN]
    exact rowcol_lt n r c hr hc
  rw [getEntry_reshape_out M n _ hsq r c hr hc,
    getEntry_flatten M n hsq r c hc, getD_zeroAt _ _ _ hi]
  by_cases hmem : (r * n + c) ∈ σ.drop (n_thresh_keep (flatten M) (k : ℤ) t)
  · rw [if_pos hmem]
    have hval := (mem_drop_sigma _ _ _ _ hσ _ hmem).2
    exact ⟨Or.inr ⟨hval, rfl⟩, fun h0 => absurd rfl h0⟩
  · rw [if_neg hmem]
    exact ⟨Or.inl rfl, fun _ => rfl⟩

/-- C10 witness: the theorem applied to `[[0,1,2],[0,0,3],[0,0,0]]`, `k = 2`,
tie positions `[2]`. -/
theorem C10_frame_only_thresh_zeroed_witness :
    ∃ R, threshold_Mtriu [[0,1,2],[0,0,3],[0,0,0]] ((2 : ℕ) : ℤ) [2] = some R ∧
      ∀ r c, r < 3 → c < 3 →
        (getEntry R r c = getEntry [[0,1,2],[0,0,3],[0,0,0]] r c ∨
          (getEntry [[0,1,2],[0,0,3],[0,0,0]] r c = 2 ∧ getEntry R r c = 0)) ∧
        (getEntry R r c ≠ 0 →
          getEntry R r c = getEntry [[0,1,2],[0,0,3],[0,0,0]] r c) :=
  C10_frame_only_thresh_zeroed [[0,1,2],[0,0,3],[0,0,0]] 3 2 [2] 2
    (by decide) (by decide) (by decide) (by decide) (by decide) (by decide)

/-- C8 (amended): for every valid input matrix, when the keep count equals the
total number of strict-upper-triangle candidate cells, `threshold_Mtriu`
returns the input unchanged, for every outcome of the random tie-break;
repeated application is therefore the identity.  (The claim's parenthetical
"thresh equals the minimum candidate value" fails for matrices with negative
entries, see the counterexample; the returned matrix is nevertheless always
the input.) -/
theorem C8_full_count_is_identity (M : List (List ℚ)) (n : ℕ) (σ : List ℕ)
    (t : ℚ) (hsq : IsSquareMat M n) (hup : UpperOnly M n)
    (hT : 1 ≤ candCount n)
    (ht : thresh (flatten M) (candCount n : ℤ) = some t)
    (hσ : σ.Perm (argwhereEq (flatten M) t)) :
    threshold_Mtriu M (candCount n : ℤ) σ = some M := by
  have hN := length_flatten M n hsq
  have hkN : candCount n ≤ (flatten M).length := by
    rw [hN]
    exact candCount_le n
  have htnn := thresh_nonneg M n (candCount n) t hsq hup hT (le_refl _) ht
  have hout := thresholdFlat_some (flatten M) (candCount n : ℤ) σ t ht
  have hzero : zeroAt (flatten M)
      (σ.drop (n_thresh_keep (flatten M) (candCount n : ℤ) t)) = flatten M := by
    rcases eq_or_lt_of_le htnn with heq | hpos
    · apply zeroAt_eq_self
      intro i hi _
      have hval := (mem_drop_sigma _ _ _ _ hσ i hi).2
      rw [hval, ← heq]
    · have hcnt := n_thresh_keep_add_gt (flatten M) (candCount n) t hT hkN ht
      have hge : (flatten M).countP (fun x => decide (t ≤ x)) ≤ candCount n := by
        rw [countP_flatten_of_zero_false M n hsq hup _
          (decide_eq_false (not_le.mpr hpos))]
        exact le_trans (List.countP_le_length _) (le_of_eq (length_candList M n))
      have hsplit := countP_le_split (flatten M) t
      have hσlen : σ.length = (flatten M).countP (fun x => decide (x = t)) := by
        rw [hσ.length_eq, length_argwhereEq]
      have hdrop : σ.drop (n_thresh_keep (flatten M) (candCount n : ℤ) t) = [] :=
        List.drop_eq_nil_of_le (by omega)
      rw [hdrop, zeroAt_nil]
  rw [hzero] at hout
  rw [threshold_Mtriu_some M _ σ _ hout, reshapeRows_flatten M n hsq]

/-- C8 witness: `[[0,1,2],[0,0,3],[0,0,0]]` has 3 candidate cells; with
`n_keep = 3` (thresh 1, tie positions `[1]`) the call returns the input. -/
theorem C8_full_count_is_identity_witness :
    threshold_Mtriu [[0,1,2],[0,0,3],[0,0,0]] ((candCount 3 : ℕ) : ℤ) [1] =
      some [[0,1,2],[0,0,3],[0,0,0]] :=
  C8_full_count_is_identity [[0,1,2],[0,0,3],[0,0,0]] 3 [1] 1
    (by decide) (by decide) (by decide) (by decide) (by decide)

/-- C8 counterexample: for the valid input `[[0,-5,3],[0,0,4],[0,0,0]]` with
`k = candCount 3 = 3`, the computed threshold is `0`, not the minimum
candidate value `-5` (the k-th largest candidate for `k = 3`), refuting the
claim's parenthetical "thresh equals the minimum candidate value". -/
theorem C8_counterexample :
    IsSquareMat [[0,-5,3],[0,0,4],[0,0,0]] 3 ∧
    UpperOnly [[0,-5,3],[0,0,4],[0,0,0]] 3 ∧
    candCount 3 = 3 ∧
    thresh (flatten [[0,-5,3],[0,0,4],[0,0,0]]) 3 = some 0 ∧
    kthLargestCand [[0,-5,3],[0,0,4],[0,0,0]] 3 3 = some (-5) ∧
    thresh (flatten [[0,-5,3],[0,0,4],[0,0,0]]) 3 ≠
      kthLargestCand [[0,-5,3],[0,0,4],[0,0,0]] 3 3 := by
  refine ⟨by decide, by decide, by decide, by decide, by decide, by decide⟩

/-- C3 (amended): for every valid input matrix all of whose entries are
nonnegative, and every `k` with `1 ≤ k ≤ candCount n`, the cutoff value
computed by `threshold_Mtriu` equals the k-th largest value among the
strict-upper-triangle entries (ties counted by value). -/
theorem C3_thresh_is_kth_largest (M : List (List ℚ)) (n k : ℕ)
    (hsq : IsSquareMat M n) (hup : UpperOnly M n)
    (hnn : ∀ x ∈ flatten M, 0 ≤ x)
    (h1 : 1 ≤ k) (h2 : k ≤ candCount n) :
    thresh (flatten M) (k : ℤ) = kthLargestCand M n (k : ℤ) := by
  have hN := length_flatten M n hsq
  have hTN := candCount_le n
  have hkN : k ≤ (flatten M).length := by
    rw [hN]
    omega
  have hclen : (candList M n).length = candCount n := length_candList M n
  have hsc_len : (npSort (candList M n)).length = candCount n := by
    rw [length_npSort, hclen]
  have hTk : candCount n - k < (npSort (candList M n)).length := by
    rw [hsc_len]
    omega
  have hjlt : (flatten M).length - k < (npSort (flatten M)).length := by
    rw [length_npSort]
    omega
  have hrhs : kthLargestCand M n (k : ℤ) =
      some ((npSort (candList M n)).get ⟨candCount n - k, hTk⟩) := by
    unfold kthLargestCand
    rw [pyGet_neg _ k h1 (by rw [hsc_len]; omega)]
    congr 1
    apply congrArg
    apply Fin.ext
    show (npSort (candList M n)).length - k = candCount n - k
    rw [hsc_len]
  have hynn : 0 ≤ (npSort (candList M n)).get ⟨candCount n - k, hTk⟩ := by
    have hmem : (npSort (candList M n)).get ⟨candCount n - k, hTk⟩ ∈
        npSort (candList M n) := List.get_mem _ _ _
    have hmem2 := (perm_npSort (candList M n)).subset hmem
    exact hnn _ (cand_mem_flatten M n hsq _ hmem2)
  have hcand_lt : (candList M n).countP
      (fun x => decide (x < (npSort (candList M n)).get ⟨candCount n - k, hTk⟩)) ≤
      candCount n - k := by
    have hs := sorted_countP_lt_le (npSort (candList M n)) (sorted_npSort _)
      (candCount n - k) hTk _ rfl
    rw [countP_npSort] at hs
    exact hs
  have hcand_le : candCount n - k < (candList M n).countP
      (fun x => decide (x ≤ (npSort (candList M n)).get ⟨candCount n - k, hTk⟩)) := by
    have hs := sorted_lt_countP_le (npSort (candList M n)) (sorted_npSort _)
      (candCount n - k) hTk _ rfl
    rw [countP_npSort] at hs
    exact hs
  have h1c : (npSort (flatten M)).countP
      (fun x => decide (x < (npSort (candList M n)).get ⟨candCount n - k, hTk⟩)) ≤
      (flatten M).length - k := by
    rw [countP_npSort]
    by_cases h0y : (0 : ℚ) < (npSort (candList M n)).get ⟨candCount n - k, hTk⟩
    · rw [countP_flatten_of_zero_true M n hsq hup _ (decide_eq_true h0y)]
      omega
    · rw [countP_flatten_of_zero_false M n hsq hup _ (decide_eq_false h0y)]
      omega
  have h2c : (flatten M).length - k < (npSort (flatten M)).countP
      (fun x => decide (x ≤ (npSort (candList M n)).get ⟨candCount n - k, hTk⟩)) := by
    rw [countP_npSort]
    rw [countP_flatten_of_zero_true M n hsq hup _ (decide_eq_true hynn)]
    omega
  have hgoal : (npSort (flatten M)).get ⟨(flatten M).length - k, hjlt⟩ =
      (npSort (candList M n)).get ⟨candCount n - k, hTk⟩ :=
    sorted_get_eq_of_countP (npSort (flatten M)) (sorted_npSort _)
      ((flatten M).length - k) hjlt _ h1c h2c
  rw [thresh_eq_get (flatten M) k h1 hkN, hrhs]
  exact congrArg some hgoal

/-- C3 witness: the theorem applied to `[[0,1,2],[0,0,3],[0,0,0]]`, `k = 2`:
the threshold is the 2nd largest candidate value, 2. -/
theorem C3_thresh_is_kth_largest_witness :
    thresh (flatten [[0,1,2],[0,0,3],[0,0,0]]) ((2 : ℕ) : ℤ) =
      kthLargestCand [[0,1,2],[0,0,3],[0,0,0]] 3 ((2 : ℕ) : ℤ) :=
  C3_thresh_is_kth_largest [[0,1,2],[0,0,3],[0,0,0]] 3 2
    (by decide) (by decide) (by decide) (by decide) (by decide)

/-- C3 counterexample: for the valid input `[[0,-5],[0,0]]` (one candidate
cell, value `-5`) and `k = 1`, the code computes threshold `0` — the 1st
largest value of the whole flattened matrix, zeros of the lower triangle
included — while the k-th largest candidate value is `-5`. -/
theorem C3_counterexample :
    IsSquareMat [[0,-5],[0,0]] 2 ∧
    UpperOnly [[0,-5],[0,0]] 2 ∧
    candCount 2 = 1 ∧
    thresh (flatten [[0,-5],[0,0]]) 1 = some 0 ∧
    kthLargestCand [[0,-5],[0,0]] 2 1 = some (-5) ∧
    thresh (flatten [[0,-5],[0,0]]) 1 ≠ kthLargestCand [[0,-5],[0,0]] 2 1 := by
  refine ⟨by decide, by decide, by decide, by decide, by decide, by decide⟩

/-- C5 (amended): `threshold_Mtriu` fails — with an uncaught `IndexError` from
`M_triu_unzip_sorted[-n_keep]`, there is no `InvalidKeepCount` check — exactly
when `n_keep > n*n` or `n_keep < 1 - n*n` (total cell count, not the
strict-upper-triangle count); in particular `n_keep = 0`, small negative
counts, and counts between the candidate count and `n*n` return a matrix. -/
theorem C5_failure_condition (M : List (List ℚ)) (n : ℕ) (nk : ℤ) (σ : List ℕ)
    (hsq : IsSquareMat M n) :
    threshold_Mtriu M nk σ = none ↔
      (((n * n : ℕ) : ℤ) < nk ∨ nk < 1 - ((n * n : ℕ) : ℤ)) := by
  rw [threshold_Mtriu_none_iff, thresh_none_iff, length_flatten M n hsq]

/-- C5 witness: a 2 x 2 matrix has 4 cells; `n_keep = 5` raises and
`n_keep = 5 > 4` holds. -/
theorem C5_failure_condition_witness :
    threshold_Mtriu [[0,5],[0,0]] 5 [] = none ↔
      (((2 * 2 : ℕ) : ℤ) < 5 ∨ (5 : ℤ) < 1 - ((2 * 2 : ℕ) : ℤ)) :=
  C5_failure_condition [[0,5],[0,0]] 2 5 [] (by decide)

/-- C5 counterexample: a 1 x 1 matrix has no strict-upper-triangle cells, so by
the claim `n_keep = 1` must signal `InvalidKeepCount`; the code instead
returns the matrix (the sort of the single zero entry is indexable at `-1`). -/
theorem C5_counterexample :
    IsSquareMat [[0]] 1 ∧
    candCount 1 = 0 ∧
    thresh (flatten [[0]]) 1 = some 0 ∧
    ([0] : List ℕ).Perm (argwhereEq (flatten [[0]]) 0) ∧
    threshold_Mtriu [[0]] 1 [0] = some [[0]] := by
  refine ⟨by decide, by decide, by decide, by decide, by decide⟩

/-- C6 (amended): `threshold_Mtriu` is not pure: `reshape(-1)` returns a view,
so the fancy-indexing assignment mutates the argument in place, and after the
call the argument's contents equal the returned matrix (for every keep count
and every tie-break outcome). -/
theorem C6_argument_aliases_result (M : List (List ℚ)) (nk : ℤ) (σ : List ℕ) :
    threshold_MtriuArgAfter M nk σ = threshold_Mtriu M nk σ := by
  unfold threshold_MtriuArgAfter threshold_Mtriu threshold_MtriuRun
  cases thresholdFlat (flatten M) nk σ with
  | none => rfl
  | some buf => rfl

/-- C6 counterexample: thresholding `[[0,5,5],[0,0,1],[0,0,0]]` with
`n_keep = 1` (thresh 5, shuffled tie positions `[1, 2]`) zeroes one of the
5-entries inside the argument's buffer: after the call the argument no longer
holds its original contents, refuting "the argument matrix is unchanged". -/
theorem C6_counterexample :
    thresh (flatten [[0,5,5],[0,0,1],[0,0,0]]) 1 = some 5 ∧
    ([1, 2] : List ℕ).Perm (argwhereEq (flatten [[0,5,5],[0,0,1],[0,0,0]]) 5) ∧
    threshold_MtriuArgAfter [[0,5,5],[0,0,1],[0,0,0]] 1 [1, 2] =
      some [[0,5,0],[0,0,1],[0,0,0]] ∧
    threshold_MtriuArgAfter [[0,5,5],[0,0,1],[0,0,0]] 1 [1, 2] ≠
      some [[0,5,5],[0,0,1],[0,0,0]] := by
  refine ⟨by decide, by decide, by decide, by decide⟩

/-- C1 (code bug, evaluated): on the spec's own concrete scenario — upper
triangle `[[0,1,2],[0,0,3],[0,0,0]]`, `k = 2` — the threshold is 2 and the
only tie position is flat index 2, so the shuffle outcome is forced; the code
zeroes nothing (it never zeroes entries strictly below the threshold), returns
the input unchanged, and the result has 3 non-zero candidate entries instead
of the exactly `k = 2` the claim requires. -/
theorem C1_not_exactly_k_nonzero :
    thresh (flatten [[0,1,2],[0,0,3],[0,0,0]]) 2 = some 2 ∧
    argwhereEq (flatten [[0,1,2],[0,0,3],[0,0,0]]) 2 = [2] ∧
    threshold_Mtriu [[0,1,2],[0,0,3],[0,0,0]] 2 [2] =
      some [[0,1,2],[0,0,3],[0,0,0]] ∧
    (threshold_Mtriu [[0,1,2],[0,0,3],[0,0,0]] 2 [2]).map
      (fun R => candNonzeroCount R 3) = some 3 ∧
    (3 : ℕ) ≠ 2 := by
  refine ⟨by decide, by decide, by decide, by decide, by decide⟩

/-- C2 (code bug, evaluated): same scenario — the entry 1 at cell (0, 1) is
strictly below the computed threshold 2, yet the returned matrix still holds 1
there: the code only ever assigns zero at positions equal to the threshold,
so positions strictly below it are never zeroed. -/
theorem C2_below_thresh_not_zeroed :
    thresh (flatten [[0,1,2],[0,0,3],[0,0,0]]) 2 = some 2 ∧
    (1 : ℚ) < 2 ∧
    (threshold_Mtriu [[0,1,2],[0,0,3],[0,0,0]] 2 [2]).map
      (fun R => getEntry R 0 1) = some 1 ∧
    (1 : ℚ) ≠ 0 := by
  refine ⟨by decide, by decide, by decide, by decide⟩

/-- C9 (code bug, evaluated): both writers guard with `os.path.exists`, but the
module never imports `os` (its imports are numpy, matplotlib.pylab and
argparse), so every call — target existing or not — raises `NameError` instead
of silently skipping; no write happens and the error propagates. -/
theorem C9_save_raises_nameerror :
    (moduleImports.contains "os") = false ∧
    ∀ (fs : FileSys) (M : List (List ℚ)) (p : String),
      save_mat fs M p = Except.error (PyErr.nameError "os") ∧
      save_png fs M p = Except.error (PyErr.nameError "os") := by
  refine ⟨rfl, ?_⟩
  intro fs M p
  exact ⟨rfl, rfl⟩

end DTI
